import Mathlib

/-!
Verification of the `nondestructive` YAML document model: a shallow
embedding of `src/yaml/raw.rs` (raw tree, mutation, serializer),
`src/yaml/value.rs` (typed accessors) and `src/yaml/table/iter.rs`
(table iteration), with theorems checking the specification's claims.

Strings are modelled as `List Char`; interner handles are natural
numbers into an append-only store.
-/

set_option maxRecDepth 4000

/-- Character text, the model of in-memory string fragments. -/
abbrev Str := List Char

/-- An interner handle (`StringId` in `strings.rs`). -/
abbrev StringId := Nat

/-- Modelled from the spec: the string interner (`crate::strings::Strings`,
not under `src/`). It "stores (or reuses a store of) a byte fragment and
returns a handle"; fragments are immutable once inserted and there is no
removal, so the store only grows. This model reuses the handle of an
identical earlier fragment, which the table-insert key comparison relies
on. -/
structure Strings where
  entries : List Str
deriving DecidableEq, Repr

/-- First index at which `s` occurs in the store. -/
def findIndex (s : Str) : List Str → Option Nat
  | [] => none
  | t :: rest => if t = s then some 0 else (findIndex s rest).map (· + 1)

/-- Modelled from the spec: `Strings::insert` — return the handle of an
existing identical fragment, or append the fragment and return its fresh
handle. -/
def Strings.insert (st : Strings) (s : Str) : Strings × StringId :=
  match findIndex s st.entries with
  | some i => (st, i)
  | none => (⟨st.entries ++ [s]⟩, st.entries.length)

/-- Modelled from the spec: `Strings::get` — retrieve the stored fragment
for a handle. -/
def Strings.get (st : Strings) (i : StringId) : Str :=
  st.entries.getD i []

/-- `yaml::NullKind` from `value.rs`. -/
inductive NullKind where
  | Keyword
  | Tilde
  | Empty
deriving DecidableEq, Repr

/-- `yaml::StringKind` (quoting kind of a string scalar). -/
inductive StringKind where
  | Bare
  | SingleQuoted
  | DoubleQuoted
deriving DecidableEq, Repr

/-- `yaml::Separator` from `value.rs`: the separator policy of a
mutation. -/
inductive Separator where
  | Auto
  | Custom (s : Str)
deriving DecidableEq, Repr

/-- `raw::RawNumber`. -/
structure RawNumber where
  string : StringId
deriving DecidableEq, Repr

/-- `raw::RawString`. -/
structure RawString where
  kind : StringKind
  string : StringId
deriving DecidableEq, Repr

/-- `raw::RawListKind`. -/
inductive RawListKind where
  | Table
  | Inline (trailing : Bool) (suffix : StringId)
deriving DecidableEq, Repr

/-- `raw::RawTableKind`. -/
inductive RawTableKind where
  | Table
  | Inline (trailing : Bool) (suffix : StringId)
deriving DecidableEq, Repr

/-- `raw::Layout`: layout metadata carried by every node. -/
structure Layout where
  indent : StringId
deriving DecidableEq, Repr

mutual
/-- `raw::Raw`: a tagged kind plus layout metadata. -/
inductive Raw where
  | mk (kind : RawKind) (layout : Layout)
/-- `raw::RawKind`: the tagged value variants. -/
inductive RawKind where
  | null (k : NullKind)
  | number (n : RawNumber)
  | string (s : RawString)
  | table (t : RawTable)
  | list (l : RawList)
/-- `raw::RawTable`. -/
inductive RawTable where
  | mk (kind : RawTableKind) (items : List RawTableItem)
/-- `raw::RawList`. -/
inductive RawList where
  | mk (kind : RawListKind) (items : List RawListItem)
/-- `raw::RawTableItem`: line-prefix (`pfx`), key, separator, value. -/
inductive RawTableItem where
  | mk (pfx : Option StringId) (key : RawString) (sep : StringId) (value : Raw)
/-- `raw::RawListItem`: line-prefix (`pfx`), separator, value. -/
inductive RawListItem where
  | mk (pfx : Option StringId) (sep : StringId) (value : Raw)
end

/-- The tagged kind of a node. -/
@[simp] def Raw.kind : Raw → RawKind
  | .mk k _ => k

/-- The layout metadata of a node. -/
@[simp] def Raw.layout : Raw → Layout
  | .mk _ l => l

/-- The container kind of a table. -/
@[simp] def RawTable.kind : RawTable → RawTableKind
  | .mk k _ => k

/-- The entries of a table. -/
@[simp] def RawTable.items : RawTable → List RawTableItem
  | .mk _ i => i

/-- The container kind of a list. -/
@[simp] def RawList.kind : RawList → RawListKind
  | .mk k _ => k

/-- The items of a list. -/
@[simp] def RawList.items : RawList → List RawListItem
  | .mk _ i => i

/-- The line-prefix of a table entry. -/
@[simp] def RawTableItem.pfx : RawTableItem → Option StringId
  | .mk p _ _ _ => p

/-- The key of a table entry. -/
@[simp] def RawTableItem.key : RawTableItem → RawString
  | .mk _ k _ _ => k

/-- The separator of a table entry. -/
@[simp] def RawTableItem.sep : RawTableItem → StringId
  | .mk _ _ s _ => s

/-- The value of a table entry. -/
@[simp] def RawTableItem.value : RawTableItem → Raw
  | .mk _ _ _ v => v

/-- The line-prefix of a list item. -/
@[simp] def RawListItem.pfx : RawListItem → Option StringId
  | .mk p _ _ => p

/-- The separator of a list item. -/
@[simp] def RawListItem.sep : RawListItem → StringId
  | .mk _ s _ => s

/-- The value of a list item. -/
@[simp] def RawListItem.value : RawListItem → Raw
  | .mk _ _ v => v

/-- The opening brace character. -/
def lbrace : Char := Char.ofNat 123

/-- The closing brace character. -/
def rbrace : Char := Char.ofNat 125

/-- The single-quote character. -/
def squote : Char := Char.ofNat 39

/-- Lowercase hexadecimal digit, as produced by the `{:02x}` format. -/
def hexDigit (n : Nat) : Char :=
  if n < 10 then Char.ofNat (48 + n) else Char.ofNat (87 + n)

/-- `raw::escape_single_quoted`: double every embedded single quote and
wrap the result in single quotes. -/
def escape_single_quoted (s : Str) : Str :=
  squote :: (s.flatMap fun c => if c = squote then [squote, squote] else [c]) ++ [squote]

/-- One character of `raw::escape_double_quoted`, following the match
arms of the source in order. -/
def escDQChar (c : Char) : Str :=
  if c = Char.ofNat 0 then ['\\', '0']
  else if c = Char.ofNat 7 then ['\\', 'a']
  else if c = Char.ofNat 8 then ['\\', 'b']
  else if c = Char.ofNat 9 then ['\\', 't']
  else if c = '\n' then ['\\', 'n']
  else if c = Char.ofNat 11 then ['\\', 'v']
  else if c = Char.ofNat 12 then ['\\', 'f']
  else if c = Char.ofNat 13 then ['\\', 'r']
  else if c = Char.ofNat 27 then ['\\', 'e']
  else if c = '"' then ['\\', '"']
  else if c.toNat < 32 ∨ c.toNat = 127 then
    ['\\', 'x', hexDigit (c.toNat / 16), hexDigit (c.toNat % 16)]
  else [c]

/-- `raw::escape_double_quoted`: wrap in double quotes, escaping control
characters per character. -/
def escape_double_quoted (s : Str) : Str :=
  '"' :: s.flatMap escDQChar ++ ['"']

mutual
/-- `Raw::display`: render a node to text. -/
def Raw.display (st : Strings) : Raw → Str
  | .mk kind _ =>
    match kind with
    | .null k =>
      match k with
      | .Keyword => ['n', 'u', 'l', 'l']
      | .Tilde => ['~']
      | .Empty => []
    | .number n => st.get n.string
    | .string s =>
      match s.kind with
      | .Bare => st.get s.string
      | .DoubleQuoted => escape_double_quoted (st.get s.string)
      | .SingleQuoted => escape_single_quoted (st.get s.string)
    | .table (.mk kind items) =>
      (match kind with
       | .Inline _ _ => [lbrace]
       | .Table => []) ++
      displayTableItems st (match kind with | .Inline _ _ => true | .Table => false) items ++
      (match kind with
       | .Inline trailing suffix =>
         (if trailing then [','] else []) ++ st.get suffix ++ [rbrace]
       | .Table => [])
    | .list (.mk kind items) =>
      (match kind with
       | .Inline _ _ => ['[']
       | .Table => []) ++
      displayListItems st
        (match kind with | .Inline _ _ => true | .Table => false)
        (match kind with | .Table => true | .Inline _ _ => false) items ++
      (match kind with
       | .Inline trailing suffix =>
         (if trailing then [','] else []) ++ st.get suffix ++ [']']
       | .Table => [])

/-- The table loop of `Raw::display`: per entry emit line-prefix, key
text, `:`, separator and the value, with `,` between entries in inline
mode. -/
def displayTableItems (st : Strings) (inline : Bool) : List RawTableItem → Str
  | [] => []
  | .mk pfx key sep value :: rest =>
    (match pfx with
     | some p => st.get p
     | none => []) ++
    st.get key.string ++ [':'] ++ st.get sep ++ value.display st ++
    (if rest.isEmpty then [] else if inline then [','] else []) ++
    displayTableItems st inline rest

/-- The list loop of `Raw::display`: per item emit line-prefix, a `-`
marker in expanded mode, separator and the value, with `,` between items
in inline mode. -/
def displayListItems (st : Strings) (inline marker : Bool) : List RawListItem → Str
  | [] => []
  | .mk pfx sep value :: rest =>
    (match pfx with
     | some p => st.get p
     | none => []) ++
    (if marker then ['-'] else []) ++
    st.get sep ++ value.display st ++
    (if rest.isEmpty then [] else if inline then [','] else []) ++
    displayListItems st inline marker rest
end

/-- Replace the element at index `i` by `f` of it, as `iter_mut` mutation
of one slot does. -/
def modifyAt (i : Nat) (f : α → α) : List α → List α
  | [] => []
  | x :: xs =>
    match i with
    | 0 => f x :: xs
    | n + 1 => x :: modifyAt n f xs

/-- `Iterator::position`: index of the first element satisfying `p`. -/
def position (p : α → Bool) : List α → Option Nat
  | [] => none
  | c :: rest => if p c then some 0 else (position p rest).map (· + 1)

/-- Derive the separator handle for a new table entry, as the `match
separator` expression in `RawTable::insert` does: `Auto` reuses the last
entry's separator or interns a single space when the table is empty;
`Custom` interns the supplied text verbatim. -/
def deriveTableSeparator (st : Strings) (items : List RawTableItem) :
    Separator → Strings × StringId
  | .Auto =>
    match items.getLast? with
    | some last => (st, last.sep)
    | none => st.insert [' ']
  | .Custom s => st.insert s

/-- Derive the separator handle for a new list item, as the `match
separator` expression in `RawList::push` does. -/
def deriveListSeparator (st : Strings) (items : List RawListItem) :
    Separator → Strings × StringId
  | .Auto =>
    match items.getLast? with
    | some last => (st, last.sep)
    | none => st.insert [' ']
  | .Custom s => st.insert s

/-- `RawList::push`: append a value to a list, deriving separator and
line-prefix from the current items and the container layout. -/
def RawList.push (l : RawList) (st : Strings) (layout : Layout)
    (sep : Separator) (value : RawKind) : Strings × RawList :=
  let d := deriveListSeparator st l.items sep
  let pfx := if l.items.isEmpty then none else some layout.indent
  (d.1, .mk l.kind (l.items ++ [.mk pfx d.2 (.mk value ⟨layout.indent⟩)]))

/-- `RawTable::insert`: intern the key; if an entry with that key handle
exists, overwrite its value kind in place and return its index;
otherwise derive separator and line-prefix, append a new `Bare`-keyed
entry, and return the previous entry count. -/
def RawTable.insert (t : RawTable) (st : Strings) (layout : Layout)
    (key : Str) (sep : Separator) (value : RawKind) :
    Strings × RawTable × Nat :=
  let k := st.insert key
  match position (fun c => c.key.string == k.2) t.items with
  | some index =>
    (k.1,
     .mk t.kind (modifyAt index
       (fun item => .mk item.pfx item.key item.sep (.mk value item.value.layout))
       t.items),
     index)
  | none =>
    let keyString : RawString := ⟨.Bare, k.2⟩
    let d := deriveTableSeparator k.1 t.items sep
    let pfx := if t.items.isEmpty then none else some layout.indent
    (d.1,
     .mk t.kind
       (t.items ++ [.mk pfx keyString d.2 (.mk value ⟨layout.indent⟩)]),
     t.items.length)

/-- The interner only ever grows by appending fragments. -/
def Strings.Ext (st st' : Strings) : Prop :=
  ∃ d, st'.entries = st.entries ++ d

theorem Strings.Ext.refl (st : Strings) : Strings.Ext st st :=
  ⟨[], by simp⟩

theorem Strings.Ext.trans {s t u : Strings} (h1 : Strings.Ext s t)
    (h2 : Strings.Ext t u) : Strings.Ext s u := by
  obtain ⟨d1, e1⟩ := h1
  obtain ⟨d2, e2⟩ := h2
  exact ⟨d1 ++ d2, by simp [e2, e1]⟩

theorem Strings.insert_ext (st : Strings) (s : Str) :
    Strings.Ext st (st.insert s).1 := by
  unfold Strings.insert
  cases h : findIndex s st.entries with
  | some i => exact ⟨[], by simp⟩
  | none => exact ⟨[s], rfl⟩

theorem Strings.get_of_ext {st st' : Strings} (h : Strings.Ext st st')
    {i : StringId} (hi : i < st.entries.length) : st'.get i = st.get i := by
  obtain ⟨d, e⟩ := h
  simp only [Strings.get, e]
  rw [List.getD_eq_getElem?_getD, List.getD_eq_getElem?_getD,
    List.getElem?_append_left hi]

theorem findIndex_some {s : Str} :
    ∀ {l : List Str} {i : Nat}, findIndex s l = some i → l.getD i [] = s := by
  intro l
  induction l with
  | nil => intro i h; simp [findIndex] at h
  | cons t rest ih =>
    intro i h
    unfold findIndex at h
    by_cases ht : t = s
    · simp [ht] at h
      subst h
      simp [ht]
    · simp [ht] at h
      obtain ⟨j, hj, hij⟩ := h
      subst hij
      simpa using ih hj

theorem Strings.get_insert (st : Strings) (s : Str) :
    (st.insert s).1.get (st.insert s).2 = s := by
  unfold Strings.insert
  cases h : findIndex s st.entries with
  | some i => simpa [Strings.get] using findIndex_some h
  | none => simp [Strings.get]

theorem findIndex_lt {s : Str} :
    ∀ {l : List Str} {i : Nat}, findIndex s l = some i → i < l.length := by
  intro l
  induction l with
  | nil => intro i h; simp [findIndex] at h
  | cons t rest ih =>
    intro i h
    unfold findIndex at h
    by_cases ht : t = s
    · simp [ht] at h
      simp
      omega
    · simp [ht] at h
      obtain ⟨j, hj, hij⟩ := h
      have := ih hj
      simp
      omega

theorem Strings.insert_lt (st : Strings) (s : Str) :
    (st.insert s).2 < (st.insert s).1.entries.length := by
  unfold Strings.insert
  cases h : findIndex s st.entries with
  | some i => simpa using findIndex_lt h
  | none => simp

mutual
/-- Every string handle that `Raw::display` reads is below `n`. -/
def boundedRaw (n : Nat) : Raw → Bool
  | .mk kind _ => boundedKind n kind
/-- Handle bound check for a raw kind. -/
def boundedKind (n : Nat) : RawKind → Bool
  | .null _ => true
  | .number num => decide (num.string < n)
  | .string s => decide (s.string < n)
  | .table (.mk kind items) =>
    (match kind with
     | .Inline _ suffix => decide (suffix < n)
     | .Table => true) && boundedTItems n items
  | .list (.mk kind items) =>
    (match kind with
     | .Inline _ suffix => decide (suffix < n)
     | .Table => true) && boundedLItems n items
/-- Handle bound check for table entries. -/
def boundedTItems (n : Nat) : List RawTableItem → Bool
  | [] => true
  | .mk pfx key sep value :: rest =>
    (match pfx with
     | some p => decide (p < n)
     | none => true) &&
    decide (key.string < n) && decide (sep < n) &&
    boundedRaw n value && boundedTItems n rest
/-- Handle bound check for list items. -/
def boundedLItems (n : Nat) : List RawListItem → Bool
  | [] => true
  | .mk pfx sep value :: rest =>
    (match pfx with
     | some p => decide (p < n)
     | none => true) &&
    decide (sep < n) && boundedRaw n value && boundedLItems n rest
end

mutual
/-- Rendering is unchanged when the interner grows, provided every
handle the node reads was already present. -/
theorem displayStable {st st' : Strings} (hx : Strings.Ext st st') :
    (r : Raw) → boundedRaw st.entries.length r = true →
    r.display st' = r.display st
  | .mk (.null k) lay, _ => by cases k <;> simp [Raw.display]
  | .mk (.number num) lay, h => by
    simp only [boundedRaw, boundedKind, decide_eq_true_eq] at h
    simp [Raw.display, Strings.get_of_ext hx h]
  | .mk (.string s) lay, h => by
    simp only [boundedRaw, boundedKind, decide_eq_true_eq] at h
    cases hk : s.kind <;>
      simp [Raw.display, hk, Strings.get_of_ext hx h]
  | .mk (.table (.mk kind items)) lay, h => by
    simp only [boundedRaw, boundedKind, Bool.and_eq_true] at h
    have hi := displayStableT hx items h.2
    cases kind with
    | Table => simp [Raw.display, hi]
    | Inline trailing suffix =>
      simp only [decide_eq_true_eq] at h
      simp [Raw.display, hi, Strings.get_of_ext hx h.1]
  | .mk (.list (.mk kind items)) lay, h => by
    simp only [boundedRaw, boundedKind, Bool.and_eq_true] at h
    have hi := displayStableL hx items h.2
    cases kind with
    | Table => simp [Raw.display, hi]
    | Inline trailing suffix =>
      simp only [decide_eq_true_eq] at h
      simp [Raw.display, hi, Strings.get_of_ext hx h.1]

/-- Table-entry rendering is unchanged when the interner grows. -/
theorem displayStableT {st st' : Strings} (hx : Strings.Ext st st') :
    (items : List RawTableItem) → boundedTItems st.entries.length items = true →
    ∀ inline, displayTableItems st' inline items = displayTableItems st inline items
  | [], _ => by intro inline; rfl
  | .mk pfx key sep value :: rest, h => by
    intro inline
    simp only [boundedTItems, Bool.and_eq_true, decide_eq_true_eq] at h
    obtain ⟨⟨⟨⟨hp, hk⟩, hs⟩, hv⟩, hr⟩ := h
    have ihv := displayStable hx value hv
    have ihr := displayStableT hx rest hr inline
    cases pfx with
    | none =>
      simp [displayTableItems, ihv, ihr, Strings.get_of_ext hx hk,
        Strings.get_of_ext hx hs]
    | some p =>
      simp only [decide_eq_true_eq] at hp
      simp [displayTableItems, ihv, ihr, Strings.get_of_ext hx hk,
        Strings.get_of_ext hx hs, Strings.get_of_ext hx hp]

/-- List-item rendering is unchanged when the interner grows. -/
theorem displayStableL {st st' : Strings} (hx : Strings.Ext st st') :
    (items : List RawListItem) → boundedLItems st.entries.length items = true →
    ∀ inline marker,
      displayListItems st' inline marker items = displayListItems st inline marker items
  | [], _ => by intro inline marker; rfl
  | .mk pfx sep value :: rest, h => by
    intro inline marker
    simp only [boundedLItems, Bool.and_eq_true, decide_eq_true_eq] at h
    obtain ⟨⟨⟨hp, hs⟩, hv⟩, hr⟩ := h
    have ihv := displayStable hx value hv
    have ihr := displayStableL hx rest hr inline marker
    cases pfx with
    | none =>
      simp [displayListItems, ihv, ihr, Strings.get_of_ext hx hs]
    | some p =>
      simp only [decide_eq_true_eq] at hp
      simp [displayListItems, ihv, ihr, Strings.get_of_ext hx hs,
        Strings.get_of_ext hx hp]
end

/-- Placeholder table entry for indexed access. -/
def dummyTItem : RawTableItem := .mk none ⟨.Bare, 0⟩ 0 (.mk (.null .Empty) ⟨0⟩)

/-- Placeholder list item for indexed access. -/
def dummyLItem : RawListItem := .mk none 0 (.mk (.null .Empty) ⟨0⟩)

theorem modifyAt_length (f : α → α) :
    ∀ (i : Nat) (l : List α), (modifyAt i f l).length = l.length := by
  intro i l
  induction l generalizing i with
  | nil => simp [modifyAt]
  | cons x xs ih =>
    cases i with
    | zero => rfl
    | succ n => simp [modifyAt, ih]

theorem modifyAt_getD_self (f : α → α) (d : α) :
    ∀ (i : Nat) (l : List α), i < l.length →
      (modifyAt i f l).getD i d = f (l.getD i d) := by
  intro i l
  induction l generalizing i with
  | nil => intro h; simp at h
  | cons x xs ih =>
    intro h
    cases i with
    | zero => rfl
    | succ n =>
      simp only [modifyAt, List.getD_cons_succ]
      exact ih n (by simpa using h)

theorem modifyAt_getD_ne (f : α → α) (d : α) :
    ∀ (i j : Nat) (l : List α), j ≠ i →
      (modifyAt i f l).getD j d = l.getD j d := by
  intro i j l
  induction l generalizing i j with
  | nil => intro _; simp [modifyAt]
  | cons x xs ih =>
    intro h
    cases i with
    | zero =>
      cases j with
      | zero => exact absurd rfl h
      | succ m => rfl
    | succ n =>
      cases j with
      | zero => rfl
      | succ m =>
        simp only [modifyAt, List.getD_cons_succ]
        exact ih n m (by omega)

theorem getD_append_length (l : List α) (x : α) (d : α) :
    (l ++ [x]).getD l.length d = x := by
  rw [List.getD_eq_getElem?_getD, List.getElem?_concat_length]
  rfl

theorem getD_append_lt (l : List α) (t : List α) (d : α) (j : Nat)
    (h : j < l.length) : (l ++ t).getD j d = l.getD j d := by
  rw [List.getD_eq_getElem?_getD, List.getD_eq_getElem?_getD,
    List.getElem?_append_left h]

theorem position_lt (p : α → Bool) :
    ∀ {l : List α} {i : Nat}, position p l = some i → i < l.length := by
  intro l
  induction l with
  | nil => intro i h; simp [position] at h
  | cons c rest ih =>
    intro i h
    unfold position at h
    by_cases hc : p c
    · simp [hc] at h
      simp
      omega
    · simp [hc] at h
      obtain ⟨j, hj, hij⟩ := h
      have := ih hj
      simp
      omega

/-- The text a single table entry contributes to the rendering: the loop
body of the table branch of `Raw::display`. -/
def tableEntryText (st : Strings) (it : RawTableItem) : Str :=
  (match it.pfx with
   | some p => st.get p
   | none => []) ++
  st.get it.key.string ++ [':'] ++ st.get it.sep ++ it.value.display st

theorem displayTableItems_cons (st : Strings) (inline : Bool)
    (i : RawTableItem) (rest : List RawTableItem) :
    displayTableItems st inline (i :: rest) =
      tableEntryText st i ++
      (if rest.isEmpty then [] else if inline then [','] else []) ++
      displayTableItems st inline rest := by
  cases i with
  | mk pfx key sep value => simp [displayTableItems, tableEntryText]

theorem deriveTableSeparator_ext (st : Strings) (items : List RawTableItem)
    (sep : Separator) : Strings.Ext st (deriveTableSeparator st items sep).1 := by
  cases sep with
  | Auto =>
    unfold deriveTableSeparator
    cases items.getLast? with
    | some last => exact Strings.Ext.refl st
    | none => exact Strings.insert_ext st [' ']
  | Custom s => exact Strings.insert_ext st s

theorem deriveListSeparator_ext (st : Strings) (items : List RawListItem)
    (sep : Separator) : Strings.Ext st (deriveListSeparator st items sep).1 := by
  cases sep with
  | Auto =>
    unfold deriveListSeparator
    cases items.getLast? with
    | some last => exact Strings.Ext.refl st
    | none => exact Strings.insert_ext st [' ']
  | Custom s => exact Strings.insert_ext st s

theorem boundedTItems_getD (n : Nat) :
    ∀ (items : List RawTableItem) (j : Nat), boundedTItems n items = true →
      j < items.length → boundedTItems n [items.getD j dummyTItem] = true := by
  intro items
  induction items with
  | nil => intro j _ h; simp at h
  | cons it rest ih =>
    intro j hb hj
    cases it with
    | mk pfx key sep value =>
      simp only [boundedTItems, Bool.and_eq_true] at hb
      cases j with
      | zero =>
        simp only [List.getD_cons_zero, boundedTItems, Bool.and_eq_true]
        exact ⟨hb.1, trivial⟩
      | succ m =>
        simp only [List.getD_cons_succ]
        exact ih m hb.2 (by simpa using hj)

/-- The text of one table entry is unchanged when the interner grows,
provided the entry's handles were already present. -/
theorem tableEntryText_stable {st st' : Strings} (hx : Strings.Ext st st')
    (it : RawTableItem) (hb : boundedTItems st.entries.length [it] = true) :
    tableEntryText st' it = tableEntryText st it := by
  cases it with
  | mk pfx key sep value =>
    simp only [boundedTItems, Bool.and_eq_true, decide_eq_true_eq] at hb
    obtain ⟨⟨⟨⟨hp, hk⟩, hs⟩, hv⟩, -⟩ := hb
    have ihv := displayStable hx value hv
    cases pfx with
    | none =>
      simp [tableEntryText, ihv, Strings.get_of_ext hx hk, Strings.get_of_ext hx hs]
    | some p =>
      simp only [decide_eq_true_eq] at hp
      simp [tableEntryText, ihv, Strings.get_of_ext hx hk,
        Strings.get_of_ext hx hs, Strings.get_of_ext hx hp]

/-- Concrete interner for the C2 scenario: `"a"` at 0, `"  "` at 1,
`"v"` at 2. -/
def c2Strings : Strings := ⟨[['a'], [' ', ' '], ['v']]⟩

/-- Concrete one-entry table `a:  v` with a two-space separator. -/
def c2Table : RawTable :=
  ⟨.Table, [⟨none, ⟨.Bare, 0⟩, 1, .mk (.string ⟨.Bare, 2⟩) ⟨0⟩⟩]⟩

/-- Re-inserting the existing key `a` with the custom separator `" "`. -/
def c2Result : Strings × RawTable × Nat :=
  RawTable.insert c2Table c2Strings ⟨0⟩ ['a'] (.Custom [' ']) (.null .Keyword)

/-- C2 counterexample: inserting an existing key with a *different*
custom separator leaves the stored separator text at its old value
`"  "`, which is not the supplied `" "` — so the separator is *not*
overwritten, refuting the claim as stated. -/
theorem c2_counterexample :
    c2Result.1.get ((c2Result.2.1.items.getD 0 dummyTItem).sep) = [' ', ' '] ∧
    [' ', ' '] ≠ ([' '] : Str) := by
  decide

/-- C2 (amended): for a table insert whose key already exists, only the
entry's value kind is overwritten (keeping the value node's layout); the
separator, line-prefix, key and position are all left untouched, the
entry count is unchanged, no new fragment beyond the key is interned,
and the existing index is returned. -/
theorem c2_replace_in_place (st : Strings) (t : RawTable) (lay : Layout)
    (key : Str) (sep : Separator) (v : RawKind) (i : Nat)
    (h : position (fun c => c.key.string == (st.insert key).2) t.items = some i) :
    (t.insert st lay key sep v).2.2 = i ∧
    (t.insert st lay key sep v).2.1.items.length = t.items.length ∧
    (t.insert st lay key sep v).1 = (st.insert key).1 ∧
    ((t.insert st lay key sep v).2.1.items.getD i dummyTItem).pfx =
      (t.items.getD i dummyTItem).pfx ∧
    ((t.insert st lay key sep v).2.1.items.getD i dummyTItem).key =
      (t.items.getD i dummyTItem).key ∧
    ((t.insert st lay key sep v).2.1.items.getD i dummyTItem).sep =
      (t.items.getD i dummyTItem).sep ∧
    ((t.insert st lay key sep v).2.1.items.getD i dummyTItem).value =
      .mk v ((t.items.getD i dummyTItem).value.layout) ∧
    ∀ j, j ≠ i →
      (t.insert st lay key sep v).2.1.items.getD j dummyTItem =
        t.items.getD j dummyTItem := by
  have hi := position_lt _ h
  obtain ⟨tk, titems⟩ := t
  simp only [RawTable.items] at h hi
  refine ⟨?_, ?_, ?_, ?_, ?_, ?_, ?_, ?_⟩
  · simp only [RawTable.insert, RawTable.items, h]
  · simp only [RawTable.insert, RawTable.items, h]
    simp [modifyAt_length]
  · simp only [RawTable.insert, RawTable.items, h]
  · simp only [RawTable.insert, RawTable.items, h]
    rw [modifyAt_getD_self _ _ _ _ hi]
    simp
  · simp only [RawTable.insert, RawTable.items, h]
    rw [modifyAt_getD_self _ _ _ _ hi]
    simp
  · simp only [RawTable.insert, RawTable.items, h]
    rw [modifyAt_getD_self _ _ _ _ hi]
    simp
  · simp only [RawTable.insert, RawTable.items, h]
    rw [modifyAt_getD_self _ _ _ _ hi]
    simp
  · intro j hj
    simp only [RawTable.insert, RawTable.items, h]
    rw [modifyAt_getD_ne _ _ _ _ _ hj]

/-- C2 witness: the amended replacement semantics evaluated on the
concrete `a:  v` table. -/
theorem c2_witness :
    c2Result.2.2 = 0 ∧
    ((c2Result.2.1.items.getD 0 dummyTItem).sep) =
      ((c2Table.items.getD 0 dummyTItem).sep) := by
  have h := c2_replace_in_place c2Strings c2Table ⟨0⟩ ['a']
    (.Custom [' ']) (.null .Keyword) 0 (by decide)
  exact ⟨h.1, h.2.2.2.2.2.1⟩

/-- C9: when table insert replaces an existing key's value, the child
node at that position keeps its layout (indentation handle) and only its
tagged content is swapped for the supplied kind. -/
theorem c9_replace_retains_node (st : Strings) (t : RawTable) (lay : Layout)
    (key : Str) (sep : Separator) (v : RawKind) (i : Nat)
    (h : position (fun c => c.key.string == (st.insert key).2) t.items = some i) :
    ((t.insert st lay key sep v).2.1.items.getD i dummyTItem).value =
      .mk v ((t.items.getD i dummyTItem).value.layout) ∧
    ((t.insert st lay key sep v).2.1.items.getD i dummyTItem).value.layout =
      (t.items.getD i dummyTItem).value.layout := by
  have hi := position_lt _ h
  obtain ⟨tk, titems⟩ := t
  simp only [RawTable.items] at h hi
  constructor
  · simp only [RawTable.insert, RawTable.items, h]
    rw [modifyAt_getD_self _ _ _ _ hi]
    simp
  · simp only [RawTable.insert, RawTable.items, h]
    rw [modifyAt_getD_self _ _ _ _ hi]
    simp

/-- C9 witness: replacing the scalar value of `a` by a null keeps the
child node's layout handle. -/
theorem c9_witness :
    ((c2Result.2.1.items.getD 0 dummyTItem).value).layout = ⟨0⟩ := by
  have h := c9_replace_retains_node c2Strings c2Table ⟨0⟩ ['a']
    (.Custom [' ']) (.null .Keyword) 0 (by decide)
  exact h.2.trans (by decide)

/-- C3: separator and line-prefix derivation for list push and table
insert of a new key. Under `Auto` the new entry reuses the last existing
entry's separator handle, or interns a single space when the container
is empty; under `Custom` the supplied text is stored verbatim; the new
entry's line-prefix is `none` exactly when the container was empty at
the call and the container's indentation handle otherwise. -/
theorem c3_derivation_rules (st : Strings) (lay : Layout) (v : RawKind) :
    (∀ (l : RawList) (last : RawListItem), l.items.getLast? = some last →
      ((l.push st lay .Auto v).2.items.getD l.items.length dummyLItem).sep = last.sep) ∧
    (∀ l : RawList, l.items = [] →
      (l.push st lay .Auto v).1.get
        (((l.push st lay .Auto v).2.items.getD l.items.length dummyLItem).sep) = [' ']) ∧
    (∀ (l : RawList) (s : Str),
      (l.push st lay (.Custom s) v).1.get
        (((l.push st lay (.Custom s) v).2.items.getD l.items.length dummyLItem).sep) = s) ∧
    (∀ (l : RawList) (sp : Separator),
      ((l.push st lay sp v).2.items.getD l.items.length dummyLItem).pfx =
        if l.items.isEmpty then none else some lay.indent) ∧
    (∀ (t : RawTable) (key : Str) (last : RawTableItem),
      position (fun c => c.key.string == (st.insert key).2) t.items = none →
      t.items.getLast? = some last →
      ((t.insert st lay key .Auto v).2.1.items.getD t.items.length dummyTItem).sep =
        last.sep) ∧
    (∀ (t : RawTable) (key : Str),
      position (fun c => c.key.string == (st.insert key).2) t.items = none →
      t.items = [] →
      (t.insert st lay key .Auto v).1.get
        (((t.insert st lay key .Auto v).2.1.items.getD t.items.length dummyTItem).sep) =
        [' ']) ∧
    (∀ (t : RawTable) (key : Str) (s : Str),
      position (fun c => c.key.string == (st.insert key).2) t.items = none →
      (t.insert st lay key (.Custom s) v).1.get
        (((t.insert st lay key (.Custom s) v).2.1.items.getD t.items.length dummyTItem).sep) =
        s) ∧
    (∀ (t : RawTable) (key : Str) (sp : Separator),
      position (fun c => c.key.string == (st.insert key).2) t.items = none →
      ((t.insert st lay key sp v).2.1.items.getD t.items.length dummyTItem).pfx =
        if t.items.isEmpty then none else some lay.indent) := by
  refine ⟨?_, ?_, ?_, ?_, ?_, ?_, ?_, ?_⟩
  · intro l last hlast
    obtain ⟨lk, litems⟩ := l
    simp only [RawList.items] at hlast ⊢
    simp only [RawList.push, RawList.items, deriveListSeparator, hlast]
    rw [getD_append_length]
    simp
  · intro l hli
    obtain ⟨lk, litems⟩ := l
    simp only [RawList.items] at hli ⊢
    subst hli
    simp only [RawList.push, RawList.items, deriveListSeparator, List.getLast?]
    simp [Strings.get_insert]
  · intro l s
    obtain ⟨lk, litems⟩ := l
    simp only [RawList.items] at *
    simp only [RawList.push, RawList.items, deriveListSeparator]
    rw [getD_append_length]
    simp [Strings.get_insert]
  · intro l sp
    obtain ⟨lk, litems⟩ := l
    simp only [RawList.items] at *
    simp only [RawList.push, RawList.items]
    rw [getD_append_length]
    simp
  · intro t key last hnone hlast
    obtain ⟨tk, titems⟩ := t
    simp only [RawTable.items] at hnone hlast ⊢
    simp only [RawTable.insert, RawTable.items, hnone, deriveTableSeparator, hlast]
    rw [getD_append_length]
    simp
  · intro t key hnone hti
    obtain ⟨tk, titems⟩ := t
    simp only [RawTable.items] at hnone hti ⊢
    subst hti
    simp only [RawTable.insert, RawTable.items, hnone, deriveTableSeparator,
      List.getLast?]
    simp [Strings.get_insert]
  · intro t key s hnone
    obtain ⟨tk, titems⟩ := t
    simp only [RawTable.items] at hnone ⊢
    simp only [RawTable.insert, RawTable.items, hnone, deriveTableSeparator]
    rw [getD_append_length]
    simp [Strings.get_insert]
  · intro t key sp hnone
    obtain ⟨tk, titems⟩ := t
    simp only [RawTable.items] at hnone ⊢
    simp only [RawTable.insert, RawTable.items, hnone]
    rw [getD_append_length]
    simp

/-- C3 witness: the derivation rules evaluated on a one-item list
(`Auto` reuses its separator), an empty list (single space), and a
custom separator on a fresh-keyed table. -/
theorem c3_witness :
    ((RawList.push ⟨.Table, [⟨none, 1, .mk (.null .Empty) ⟨0⟩⟩]⟩ ⟨[[]]⟩ ⟨2⟩ .Auto
        (.null .Keyword)).2.items.getD 1 dummyLItem).sep = 1 ∧
    (RawTable.insert ⟨.Table, []⟩ ⟨[]⟩ ⟨0⟩ ['k'] (.Custom ['x', 'x'])
        (.null .Keyword)).1.get
      (((RawTable.insert ⟨.Table, []⟩ ⟨[]⟩ ⟨0⟩ ['k'] (.Custom ['x', 'x'])
          (.null .Keyword)).2.1.items.getD 0 dummyTItem).sep) = ['x', 'x'] := by
  constructor
  · exact (c3_derivation_rules ⟨[[]]⟩ ⟨2⟩ (.null .Keyword)).1
      ⟨.Table, [⟨none, 1, .mk (.null .Empty) ⟨0⟩⟩]⟩ ⟨none, 1, .mk (.null .Empty) ⟨0⟩⟩
      rfl
  · exact (c3_derivation_rules ⟨[]⟩ ⟨0⟩ (.null .Keyword)).2.2.2.2.2.2.1
      ⟨.Table, []⟩ ['k'] ['x', 'x'] (by decide)

/-- C10: a new entry created by table insert stores its key with the
`Bare` kind, the interned key text is exactly the supplied key, and the
entry's rendered text embeds the key bytes verbatim — no quoting or
escaping — whatever characters the key contains. -/
theorem c10_bare_key_verbatim (st : Strings) (t : RawTable) (lay : Layout)
    (key : Str) (sep : Separator) (v : RawKind)
    (hnone : position (fun c => c.key.string == (st.insert key).2) t.items = none) :
    ((t.insert st lay key sep v).2.1.items.getD t.items.length dummyTItem).key.kind =
      .Bare ∧
    (t.insert st lay key sep v).1.get
      (((t.insert st lay key sep v).2.1.items.getD t.items.length dummyTItem).key.string) =
      key ∧
    tableEntryText (t.insert st lay key sep v).1
      ((t.insert st lay key sep v).2.1.items.getD t.items.length dummyTItem) =
      (match ((t.insert st lay key sep v).2.1.items.getD t.items.length dummyTItem).pfx with
       | some p => (t.insert st lay key sep v).1.get p
       | none => []) ++
      key ++ [':'] ++
      (t.insert st lay key sep v).1.get
        (((t.insert st lay key sep v).2.1.items.getD t.items.length dummyTItem).sep) ++
      ((t.insert st lay key sep v).2.1.items.getD t.items.length dummyTItem).value.display
        (t.insert st lay key sep v).1 := by
  obtain ⟨tk, titems⟩ := t
  simp only [RawTable.items] at hnone ⊢
  have hext := deriveTableSeparator_ext (st.insert key).1 titems sep
  have hlt := Strings.insert_lt st key
  have hkey :
      (deriveTableSeparator (st.insert key).1 titems sep).1.get (st.insert key).2 = key :=
    (Strings.get_of_ext hext hlt).trans (Strings.get_insert st key)
  refine ⟨?_, ?_, ?_⟩
  · simp only [RawTable.insert, RawTable.items, hnone]
    rw [getD_append_length]
    simp
  · simp only [RawTable.insert, RawTable.items, hnone]
    rw [getD_append_length]
    simpa using hkey
  · simp only [RawTable.insert, RawTable.items, hnone]
    rw [getD_append_length]
    simp only [tableEntryText, RawTableItem.pfx, RawTableItem.key,
      RawTableItem.sep, RawTableItem.value]
    rw [hkey]

/-- C10 witness: inserting the key `a'b "c` (which would need quoting)
into an empty table stores it `Bare` and its stored text is that key
verbatim. -/
theorem c10_witness :
    ((RawTable.insert ⟨.Table, []⟩ ⟨[]⟩ ⟨0⟩ ['a', squote, 'b', ' ', '"', 'c']
        .Auto (.null .Keyword)).2.1.items.getD 0 dummyTItem).key.kind = .Bare ∧
    (RawTable.insert ⟨.Table, []⟩ ⟨[]⟩ ⟨0⟩ ['a', squote, 'b', ' ', '"', 'c']
        .Auto (.null .Keyword)).1.get
      (((RawTable.insert ⟨.Table, []⟩ ⟨[]⟩ ⟨0⟩ ['a', squote, 'b', ' ', '"', 'c']
          .Auto (.null .Keyword)).2.1.items.getD 0 dummyTItem).key.string) =
      ['a', squote, 'b', ' ', '"', 'c'] := by
  have h := c10_bare_key_verbatim ⟨[]⟩ ⟨.Table, []⟩ ⟨0⟩
    ['a', squote, 'b', ' ', '"', 'c'] .Auto (.null .Keyword) (by decide)
  exact ⟨h.1, h.2.1⟩

/-- C4: inserting a fresh key into a table with `n` entries appends at
index `n` and returns `n`; every prior entry is structurally unchanged,
and (when the prior entries' handles are all interned) each prior
entry's rendered text is unchanged by the insert. -/
theorem c4_append_preserves (st : Strings) (t : RawTable) (lay : Layout)
    (key : Str) (sep : Separator) (v : RawKind)
    (hnone : position (fun c => c.key.string == (st.insert key).2) t.items = none) :
    (t.insert st lay key sep v).2.2 = t.items.length ∧
    (t.insert st lay key sep v).2.1.items.length = t.items.length + 1 ∧
    (∀ j, j < t.items.length →
      (t.insert st lay key sep v).2.1.items.getD j dummyTItem =
        t.items.getD j dummyTItem) ∧
    (boundedTItems st.entries.length t.items = true →
      ∀ j, j < t.items.length →
        tableEntryText (t.insert st lay key sep v).1
          ((t.insert st lay key sep v).2.1.items.getD j dummyTItem) =
          tableEntryText st (t.items.getD j dummyTItem)) := by
  obtain ⟨tk, titems⟩ := t
  simp only [RawTable.items] at hnone ⊢
  have hext : Strings.Ext st (deriveTableSeparator (st.insert key).1 titems sep).1 :=
    (Strings.insert_ext st key).trans (deriveTableSeparator_ext (st.insert key).1 titems sep)
  refine ⟨?_, ?_, ?_, ?_⟩
  · simp only [RawTable.insert, RawTable.items, hnone]
  · simp only [RawTable.insert, RawTable.items, hnone]
    simp
  · intro j hj
    simp only [RawTable.insert, RawTable.items, hnone]
    rw [getD_append_lt _ _ _ _ hj]
  · intro hb j hj
    simp only [RawTable.insert, RawTable.items, hnone]
    rw [getD_append_lt _ _ _ _ hj]
    exact tableEntryText_stable hext (titems.getD j dummyTItem)
      (boundedTItems_getD _ _ _ hb hj)

/-- C4 witness: a one-entry table `a:  v` with a fresh key `b` appended:
returns index 1 and entry 0's text stays `a:  v`. -/
theorem c4_witness :
    (RawTable.insert c2Table c2Strings ⟨0⟩ ['b'] .Auto (.null .Keyword)).2.2 = 1 ∧
    tableEntryText (RawTable.insert c2Table c2Strings ⟨0⟩ ['b'] .Auto (.null .Keyword)).1
      ((RawTable.insert c2Table c2Strings ⟨0⟩ ['b'] .Auto
        (.null .Keyword)).2.1.items.getD 0 dummyTItem) =
      tableEntryText c2Strings (c2Table.items.getD 0 dummyTItem) := by
  have h := c4_append_preserves c2Strings c2Table ⟨0⟩ ['b'] .Auto (.null .Keyword)
    (by decide)
  exact ⟨h.1, h.2.2.2 (by decide) 0 (by decide)⟩

/-- Interner for the compact-list scenario: `"1"` at 0, `" "` at 1,
`"2"` at 2, `"3"` at 3, `""` at 4, `"4"` at 5. -/
def c8Strings : Strings := ⟨[['1'], [' '], ['2'], ['3'], [], ['4']]⟩

/-- The compact list `[1, 2, 3]` (no trailing comma, empty suffix). -/
def c8List : RawList :=
  ⟨.Inline false 4,
   [⟨none, 4, .mk (.number ⟨0⟩) ⟨4⟩⟩,
    ⟨none, 1, .mk (.number ⟨2⟩) ⟨4⟩⟩,
    ⟨none, 1, .mk (.number ⟨3⟩) ⟨4⟩⟩]⟩

/-- The compact list `[1, 2, 3,]` (with a trailing comma). -/
def c8ListTrailing : RawList :=
  ⟨.Inline true 4,
   [⟨none, 4, .mk (.number ⟨0⟩) ⟨4⟩⟩,
    ⟨none, 1, .mk (.number ⟨2⟩) ⟨4⟩⟩,
    ⟨none, 1, .mk (.number ⟨3⟩) ⟨4⟩⟩]⟩

/-- C8: list push and table insert never change the container's kind
(including the trailing-comma flag and interior suffix, which live
inside the `Inline` kind); concretely, pushing `4` into the compact list
`[1, 2, 3]` renders `[1, 2, 3, 4]`, and into `[1, 2, 3,]` renders
`[1, 2, 3, 4,]` — never converting to expanded block form. -/
theorem c8_kind_invariant :
    (∀ (st : Strings) (lay : Layout) (sep : Separator) (v : RawKind) (l : RawList),
      ((l.push st lay sep v).2).kind = l.kind) ∧
    (∀ (st : Strings) (lay : Layout) (key : Str) (sep : Separator) (v : RawKind)
      (t : RawTable), ((t.insert st lay key sep v).2.1).kind = t.kind) ∧
    Raw.display (c8List.push c8Strings ⟨4⟩ .Auto (.number ⟨5⟩)).1
      (.mk (.list (c8List.push c8Strings ⟨4⟩ .Auto (.number ⟨5⟩)).2) ⟨4⟩) =
      "[1, 2, 3, 4]".toList ∧
    Raw.display (c8ListTrailing.push c8Strings ⟨4⟩ .Auto (.number ⟨5⟩)).1
      (.mk (.list (c8ListTrailing.push c8Strings ⟨4⟩ .Auto (.number ⟨5⟩)).2) ⟨4⟩) =
      "[1, 2, 3, 4,]".toList := by
  refine ⟨?_, ?_, by decide, by decide⟩
  · intro st lay sep v l
    obtain ⟨lk, litems⟩ := l
    simp [RawList.push]
  · intro st lay key sep v t
    obtain ⟨tk, titems⟩ := t
    cases hpos : position (fun c => c.key.string == (st.insert key).2) titems with
    | some i => simp only [RawTable.insert, RawTable.items, hpos, RawTable.kind]
    | none => simp only [RawTable.insert, RawTable.items, hpos, RawTable.kind]

/-- `c` differs from `Char.ofNat n` when its code point differs from `n`
(for `n` a valid code point). -/
theorem charNeOfNat (c : Char) (n : Nat) (hn : (Char.ofNat n).toNat = n)
    (h : c.toNat ≠ n) : c ≠ Char.ofNat n :=
  fun e => h (by rw [e, hn])

/-- C5: a String node renders purely from its quoting kind and stored
text. Bare emits the text verbatim; single-quoted doubles embedded
single quotes and wraps in single quotes; double-quoted wraps in double
quotes and maps each character: the ten named characters to their short
escapes, any other ASCII control character (including delete) to a
two-digit lowercase `\xHH` escape, and every remaining character —
including non-ASCII — through unchanged. -/
theorem c5_string_rendering (st : Strings) (id : StringId) (lay : Layout) :
    Raw.display st (.mk (.string ⟨.Bare, id⟩) lay) = st.get id ∧
    Raw.display st (.mk (.string ⟨.SingleQuoted, id⟩) lay) =
      squote :: ((st.get id).flatMap fun c =>
        if c = squote then [squote, squote] else [c]) ++ [squote] ∧
    Raw.display st (.mk (.string ⟨.DoubleQuoted, id⟩) lay) =
      '"' :: (st.get id).flatMap escDQChar ++ ['"'] ∧
    (escDQChar (Char.ofNat 0) = ['\\', '0'] ∧
     escDQChar (Char.ofNat 7) = ['\\', 'a'] ∧
     escDQChar (Char.ofNat 8) = ['\\', 'b'] ∧
     escDQChar (Char.ofNat 9) = ['\\', 't'] ∧
     escDQChar (Char.ofNat 10) = ['\\', 'n'] ∧
     escDQChar (Char.ofNat 11) = ['\\', 'v'] ∧
     escDQChar (Char.ofNat 12) = ['\\', 'f'] ∧
     escDQChar (Char.ofNat 13) = ['\\', 'r'] ∧
     escDQChar (Char.ofNat 27) = ['\\', 'e'] ∧
     escDQChar '"' = ['\\', '"']) ∧
    (∀ c : Char, c.toNat < 32 →
      c.toNat ∉ ([0, 7, 8, 9, 10, 11, 12, 13, 27] : List Nat) →
      escDQChar c = ['\\', 'x', hexDigit (c.toNat / 16), hexDigit (c.toNat % 16)]) ∧
    escDQChar (Char.ofNat 127) = ['\\', 'x', '7', 'f'] ∧
    (∀ c : Char, 32 ≤ c.toNat → c.toNat ≠ 127 → c ≠ '"' →
      escDQChar c = [c]) := by
  refine ⟨?_, ?_, ?_, by decide, ?_, by decide, ?_⟩
  · simp [Raw.display]
  · simp [Raw.display, escape_single_quoted]
  · simp [Raw.display, escape_double_quoted]
  · intro c h1 h2
    simp only [List.mem_cons, List.not_mem_nil, or_false, not_or] at h2
    obtain ⟨t0, t7, t8, t9, t10, t11, t12, t13, t27⟩ := h2
    have h0 := charNeOfNat c 0 (by decide) t0
    have h7 := charNeOfNat c 7 (by decide) t7
    have h8 := charNeOfNat c 8 (by decide) t8
    have h9 := charNeOfNat c 9 (by decide) t9
    have h10 : c ≠ '\n' := charNeOfNat c 10 (by decide) t10
    have h11 := charNeOfNat c 11 (by decide) t11
    have h12 := charNeOfNat c 12 (by decide) t12
    have h13 := charNeOfNat c 13 (by decide) t13
    have h27 := charNeOfNat c 27 (by decide) t27
    have h34 : c ≠ '"' := charNeOfNat c 34 (by decide) (by omega)
    rw [escDQChar, if_neg h0, if_neg h7, if_neg h8, if_neg h9, if_neg h10,
      if_neg h11, if_neg h12, if_neg h13, if_neg h27, if_neg h34,
      if_pos (Or.inl h1)]
  · intro c hge hne hq
    have h0 := charNeOfNat c 0 (by decide) (by omega)
    have h7 := charNeOfNat c 7 (by decide) (by omega)
    have h8 := charNeOfNat c 8 (by decide) (by omega)
    have h9 := charNeOfNat c 9 (by decide) (by omega)
    have h10 : c ≠ '\n' := charNeOfNat c 10 (by decide) (by omega)
    have h11 := charNeOfNat c 11 (by decide) (by omega)
    have h12 := charNeOfNat c 12 (by decide) (by omega)
    have h13 := charNeOfNat c 13 (by decide) (by omega)
    have h27 := charNeOfNat c 27 (by decide) (by omega)
    rw [escDQChar, if_neg h0, if_neg h7, if_neg h8, if_neg h9, if_neg h10,
      if_neg h11, if_neg h12, if_neg h13, if_neg h27, if_neg hq, if_neg]
    intro h
    rcases h with h | h
    · omega
    · exact hne h

/-- C5 witness: single-quote doubling on `h'i`, the `\x05` escape, and
`A` passing through untouched. -/
theorem c5_witness :
    Raw.display ⟨[['h', squote, 'i']]⟩ (.mk (.string ⟨.SingleQuoted, 0⟩) ⟨0⟩) =
      squote :: ((['h', squote, 'i'] : Str).flatMap fun c =>
        if c = squote then [squote, squote] else [c]) ++ [squote] ∧
    escDQChar (Char.ofNat 5) =
      ['\\', 'x', hexDigit ((Char.ofNat 5).toNat / 16), hexDigit ((Char.ofNat 5).toNat % 16)] ∧
    escDQChar 'A' = ['A'] := by
  refine ⟨?_, ?_, ?_⟩
  · exact (c5_string_rendering ⟨[['h', squote, 'i']]⟩ 0 ⟨0⟩).2.1
  · exact (c5_string_rendering ⟨[]⟩ 0 ⟨0⟩).2.2.2.2.1 (Char.ofNat 5)
      (by decide) (by decide)
  · exact (c5_string_rendering ⟨[]⟩ 0 ⟨0⟩).2.2.2.2.2.2 'A'
      (by decide) (by decide) (by decide)

/-- `Raw` as matched by `value.rs` (the arena-facing variant set:
null, boolean, number, string, mapping, sequence). -/
inductive VRaw where
  | null
  | boolean (b : Bool)
  | number (string : StringId)
  | string (string : StringId)
  | mapping
  | sequence
deriving DecidableEq, Repr

/-- `yaml::data::Data`: the arena of raw nodes plus the interned byte
fragments (bytes, since `as_str` must check encoding). -/
structure VData where
  strings : List (List Nat)
  raws : List VRaw
deriving DecidableEq, Repr

/-- `Data::raw`: the raw node for a value id. -/
def VData.raw (d : VData) (id : Nat) : VRaw :=
  d.raws.getD id .null

/-- `Data::str`: the stored bytes for a string id. -/
def VData.str (d : VData) (sid : StringId) : List Nat :=
  d.strings.getD sid []

/-- `yaml::Value`: a data borrow paired with a value id. -/
structure Value where
  data : VData
  id : Nat
deriving DecidableEq, Repr

/-- The raw node denoted by a value view. -/
def Value.raw (v : Value) : VRaw :=
  v.data.raw v.id

/-- Modelled from the spec: UTF-8 validity of a byte sequence, as
checked by the standard library's `str` conversion used in
`Value::as_str` (the parser and `bstr` are outside `src/`). -/
def utf8Cont (b : Nat) : Bool :=
  decide (128 ≤ b ∧ b ≤ 191)

/-- Modelled from the spec: the UTF-8 well-formedness check (RFC 3629
byte ranges) behind "valid text in the document's declared encoding". -/
def utf8Valid : List Nat → Bool
  | [] => true
  | b :: rest =>
    if b ≤ 127 then utf8Valid rest
    else if 194 ≤ b ∧ b ≤ 223 then
      match rest with
      | c :: r2 => utf8Cont c && utf8Valid r2
      | [] => false
    else if b = 224 then
      match rest with
      | c1 :: c2 :: r2 => decide (160 ≤ c1 ∧ c1 ≤ 191) && utf8Cont c2 && utf8Valid r2
      | _ => false
    else if 225 ≤ b ∧ b ≤ 236 then
      match rest with
      | c1 :: c2 :: r2 => utf8Cont c1 && utf8Cont c2 && utf8Valid r2
      | _ => false
    else if b = 237 then
      match rest with
      | c1 :: c2 :: r2 => decide (128 ≤ c1 ∧ c1 ≤ 159) && utf8Cont c2 && utf8Valid r2
      | _ => false
    else if 238 ≤ b ∧ b ≤ 239 then
      match rest with
      | c1 :: c2 :: r2 => utf8Cont c1 && utf8Cont c2 && utf8Valid r2
      | _ => false
    else if b = 240 then
      match rest with
      | c1 :: c2 :: c3 :: r2 =>
        decide (144 ≤ c1 ∧ c1 ≤ 191) && utf8Cont c2 && utf8Cont c3 && utf8Valid r2
      | _ => false
    else if 241 ≤ b ∧ b ≤ 243 then
      match rest with
      | c1 :: c2 :: c3 :: r2 =>
        utf8Cont c1 && utf8Cont c2 && utf8Cont c3 && utf8Valid r2
      | _ => false
    else if b = 244 then
      match rest with
      | c1 :: c2 :: c3 :: r2 =>
        decide (128 ≤ c1 ∧ c1 ≤ 143) && utf8Cont c2 && utf8Cont c3 && utf8Valid r2
      | _ => false
    else false

/-- All-decimal-digit parse of a byte string. -/
def parseDecimal (bs : List Nat) : Option Nat :=
  if bs = [] then none
  else if bs.all fun b => decide (48 ≤ b ∧ b ≤ 57) then
    some (bs.foldl (fun acc b => acc * 10 + (b - 48)) 0)
  else none

/-- Modelled from the spec: `lexical_core::parse::<u8>` — a numeric
literal parses only if it is lexically a decimal number that fits the
type; a too-large literal fails just like a malformed one. -/
def parse_u8 (bs : List Nat) : Option Nat :=
  match parseDecimal bs with
  | some v => if v ≤ 255 then some v else none
  | none => none

/-- `Value::as_bstr`: the stored bytes of a String node, any encoding. -/
def Value.as_bstr (v : Value) : Option (List Nat) :=
  match v.raw with
  | .string s => some (v.data.str s)
  | _ => none

/-- `Value::as_str`: the stored bytes of a String node, only when they
are valid text. -/
def Value.as_str (v : Value) : Option (List Nat) :=
  match v.raw with
  | .string s => if utf8Valid (v.data.str s) then some (v.data.str s) else none
  | _ => none

/-- `Value::as_bool`. -/
def Value.as_bool (v : Value) : Option Bool :=
  match v.raw with
  | .boolean b => some b
  | _ => none

/-- `Value::as_mapping`: a mapping view (the same data/id pair) only
for mapping nodes. -/
def Value.as_mapping (v : Value) : Option Value :=
  match v.raw with
  | .mapping => some v
  | _ => none

/-- `Value::as_sequence`. -/
def Value.as_sequence (v : Value) : Option Value :=
  match v.raw with
  | .sequence => some v
  | _ => none

/-- The body of the `as_number!` macro: every numeric accessor parses
the stored text of a Number node with its type's lexical parser and
returns `none` otherwise. -/
def Value.asNumber (parse : List Nat → Option α) (v : Value) : Option α :=
  match v.raw with
  | .number s => parse (v.data.str s)
  | _ => none

/-- `Value::as_u8`, instantiating the macro with the `u8` parser. -/
def Value.as_u8 (v : Value) : Option Nat :=
  Value.asNumber parse_u8 v

/-- C7: every fallible read accessor yields `none` rather than an
error: on a kind mismatch each accessor is `none`; a numeric accessor
on a Number node is exactly the lexical parse (so parse failure —
including a too-large literal, e.g. `300` for u8 — is `none`); a
String node whose bytes are not valid text gives `none` from `as_str`
while `as_bstr` still returns the bytes. -/
theorem c7_accessors_absence (v : Value) :
    ((∀ s, v.raw ≠ .string s) → v.as_bstr = none ∧ v.as_str = none) ∧
    ((∀ b, v.raw ≠ .boolean b) → v.as_bool = none) ∧
    (v.raw ≠ .mapping → v.as_mapping = none) ∧
    (v.raw ≠ .sequence → v.as_sequence = none) ∧
    (∀ (α : Type) (parse : List Nat → Option α),
      (∀ s, v.raw ≠ .number s) → v.asNumber parse = none) ∧
    (∀ (α : Type) (parse : List Nat → Option α) (s : StringId),
      v.raw = .number s → v.asNumber parse = parse (v.data.str s)) ∧
    (∀ s, v.raw = .string s → v.as_bstr = some (v.data.str s)) ∧
    (∀ s, v.raw = .string s → utf8Valid (v.data.str s) = false →
      v.as_str = none) ∧
    parse_u8 [51, 48, 48] = none ∧
    parse_u8 [52, 50] = some 42 := by
  refine ⟨?_, ?_, ?_, ?_, ?_, ?_, ?_, ?_, by decide, by decide⟩
  · intro h
    cases hr : v.raw <;>
      simp_all [Value.as_bstr, Value.as_str]
  · intro h
    cases hr : v.raw <;> simp_all [Value.as_bool]
  · intro h
    cases hr : v.raw <;> simp_all [Value.as_mapping]
  · intro h
    cases hr : v.raw <;> simp_all [Value.as_sequence]
  · intro α parse h
    cases hr : v.raw <;> simp_all [Value.asNumber]
  · intro α parse s h
    simp [Value.asNumber, h]
  · intro s h
    simp [Value.as_bstr, h]
  · intro s h hn
    simp [Value.as_str, h, hn]

/-- Concrete data for the C7 witness: string `0xff` (invalid UTF-8) at
fragment 0, literal `300` at fragment 1; nodes: a boolean, that string,
and that number. -/
def c7Data : VData :=
  ⟨[[255], [51, 48, 48]], [.boolean true, .string 0, .number 1]⟩

/-- C7 witness: on the concrete arena, the boolean node gives no
string, the invalid-UTF-8 string node gives bytes but no text, and the
`300` number node gives no u8. -/
theorem c7_witness :
    Value.as_bstr ⟨c7Data, 0⟩ = none ∧
    Value.as_bstr ⟨c7Data, 1⟩ = some [255] ∧
    Value.as_str ⟨c7Data, 1⟩ = none ∧
    Value.as_u8 ⟨c7Data, 2⟩ = none := by
  refine ⟨?_, ?_, ?_, ?_⟩
  · exact ((c7_accessors_absence ⟨c7Data, 0⟩).1 (fun s h => VRaw.noConfusion h)).1
  · exact (c7_accessors_absence ⟨c7Data, 1⟩).2.2.2.2.2.2.1 0 rfl
  · exact (c7_accessors_absence ⟨c7Data, 1⟩).2.2.2.2.2.2.2.1 0 rfl (by decide)
  · exact ((c7_accessors_absence ⟨c7Data, 2⟩).2.2.2.2.2.1 Nat parse_u8 1 rfl).trans
      (by decide)

/-- A table entry as seen by `table/iter.rs`: an interned key and the
value's arena id. -/
structure ItTableItem where
  key : RawString
  value : Nat
deriving DecidableEq, Repr

/-- `table::Iter`: the data borrow plus the remaining slice window of
entries (a slice iterator consumes from either end). -/
structure Iter where
  data : VData
  items : List ItTableItem
deriving DecidableEq, Repr

/-- `Iter::new`. -/
def Iter.new (data : VData) (slice : List ItTableItem) : Iter :=
  ⟨data, slice⟩

/-- `Iterator::next` for `Iter`: pop the front entry and yield its
(key-bytes, value-id) pair. -/
def Iter.next (it : Iter) : Option (List Nat × Nat) × Iter :=
  match it.items with
  | [] => (none, it)
  | item :: rest =>
    (some (it.data.str item.key.string, item.value), ⟨it.data, rest⟩)

/-- `Iterator::nth` for `Iter`: skip `n` entries from the front and
yield the next one. -/
def Iter.nth (it : Iter) (n : Nat) : Option (List Nat × Nat) × Iter :=
  match it.items.drop n with
  | [] => (none, ⟨it.data, []⟩)
  | item :: rest =>
    (some (it.data.str item.key.string, item.value), ⟨it.data, rest⟩)

/-- `Iterator::size_hint` for `Iter`: the exact remaining count. -/
def Iter.size_hint (it : Iter) : Nat × Option Nat :=
  (it.items.length, some it.items.length)

/-- `DoubleEndedIterator::next_back` for `Iter`: pop the back entry. -/
def Iter.next_back (it : Iter) : Option (List Nat × Nat) × Iter :=
  match it.items.getLast? with
  | none => (none, it)
  | some item =>
    (some (it.data.str item.key.string, item.value), ⟨it.data, it.items.dropLast⟩)

/-- `DoubleEndedIterator::nth_back` for `Iter`: the source body calls
`self.iter.nth(n)` — the *front* skip — not `nth_back`. -/
def Iter.nth_back (it : Iter) (n : Nat) : Option (List Nat × Nat) × Iter :=
  match it.items.drop n with
  | [] => (none, ⟨it.data, []⟩)
  | item :: rest =>
    (some (it.data.str item.key.string, item.value), ⟨it.data, rest⟩)

/-- Key bytes `a`, `b`, `c` for the iterator scenario. -/
def c6Data : VData := ⟨[[97], [98], [99]], []⟩

/-- An iterator over three entries with keys `a`, `b`, `c` (value ids
10, 11, 12). -/
def c6Iter : Iter :=
  ⟨c6Data, [⟨⟨.Bare, 0⟩, 10⟩, ⟨⟨.Bare, 1⟩, 11⟩, ⟨⟨.Bare, 2⟩, 12⟩]⟩

/-- C6: on the `a`,`b`,`c` iterator, forward iteration yields keys in
storage order and backward iteration the reverse, with the exact size
decreasing from either end — but `nth_back 0` yields the *front* entry
`a` where the `DoubleEndedIterator` contract (and the claim) require
the back entry `c`, i.e. `nth_back 0` disagrees with `next_back`. -/
theorem c6_nth_back_bug :
    (c6Iter.next).1 = some ([97], 10) ∧
    ((c6Iter.next).2.next).1 = some ([98], 11) ∧
    (((c6Iter.next).2.next).2.next).1 = some ([99], 12) ∧
    ((((c6Iter.next).2.next).2.next).2.next).1 = none ∧
    (c6Iter.next_back).1 = some ([99], 12) ∧
    ((c6Iter.next_back).2.next_back).1 = some ([98], 11) ∧
    (((c6Iter.next_back).2.next_back).2.next_back).1 = some ([97], 10) ∧
    c6Iter.size_hint = (3, some 3) ∧
    (c6Iter.next).2.size_hint = (2, some 2) ∧
    (c6Iter.next_back).2.size_hint = (2, some 2) ∧
    (c6Iter.nth 1).1 = some ([98], 11) ∧
    (c6Iter.nth_back 0).1 = some ([97], 10) ∧
    (c6Iter.nth_back 0).1 ≠ (c6Iter.next_back).1 := by
  decide

/-- Split text at newline characters (every `\n` ends a line; the list
of lines is never empty). -/
def splitNl : Str → List Str
  | [] => [[]]
  | c :: rest =>
    if c = '\n' then [] :: splitNl rest
    else
      match splitNl rest with
      | l :: ls => (c :: l) :: ls
      | [] => [[c]]

/-- Split a line at its first `:`. -/
def splitColon : Str → Option (Str × Str)
  | [] => none
  | c :: rest =>
    if c = ':' then some ([], rest)
    else (splitColon rest).map fun p => (c :: p.1, p.2)

/-- Re-join lines: the head line bare when `first`, every further line
preceded by a newline. -/
def glue (first : Bool) : List Str → Str
  | [] => []
  | l :: ls => (if first then [] else ['\n']) ++ l ++ glue false ls

/-- Modelled from the spec: the scanner's per-line work for an expanded
top-level table (the byte-level scanner is outside `src/`). Each line
`key:SPACESvalue` becomes an entry whose key, separator (the run of
spaces after the colon) and bare value are interned; the first entry
carries no line-prefix, every later entry carries the container's
newline indentation handle. -/
def parseItems (nl : StringId) : List Str → Strings → Bool →
    Option (Strings × List RawTableItem)
  | [], st, _ => some (st, [])
  | line :: rest, st, first =>
    match splitColon line with
    | none => none
    | some (k, r) =>
      let sep := r.takeWhile fun c => c = ' '
      let v := r.dropWhile fun c => c = ' '
      let p1 := st.insert k
      let p2 := p1.1.insert sep
      let p3 := p2.1.insert v
      match parseItems nl rest p3.1 false with
      | none => none
      | some (st', items) =>
        some (st',
          RawTableItem.mk (if first then none else some nl) ⟨.Bare, p1.2⟩ p2.2
            (.mk (.string ⟨.Bare, p3.2⟩) ⟨nl⟩) :: items)

/-- Modelled from the spec: the scanner/builder for a document subset —
a single-line bare scalar, or an expanded top-level table of
`key:SPACESvalue` lines. It produces the populated interner and the
root node the core consumes. -/
def parseDoc (s : Str) : Option (Strings × Raw) :=
  if s.contains ':' = false ∧ s.contains '\n' = false then
    some ((Strings.mk []).insert s |>.1,
      .mk (.string ⟨.Bare, ((Strings.mk []).insert s).2⟩)
        ⟨((Strings.mk []).insert s).2⟩)
  else
    match parseItems ((Strings.mk []).insert ['\n']).2 (splitNl s)
        ((Strings.mk []).insert ['\n']).1 true with
    | none => none
    | some (st, items) =>
      some (st, .mk (.table (.mk .Table items)) ⟨((Strings.mk []).insert ['\n']).2⟩)

theorem splitNl_ne_nil : ∀ s : Str, splitNl s ≠ [] := by
  intro s
  cases s with
  | nil => simp [splitNl]
  | cons c rest =>
    simp only [splitNl]
    by_cases h : c = '\n'
    · simp [h]
    · simp only [h, if_false]
      cases hs : splitNl rest <;> simp

theorem glue_false_cons (ls : List Str) (h : ls ≠ []) :
    glue false ls = '\n' :: glue true ls := by
  cases ls with
  | nil => exact absurd rfl h
  | cons l rest => simp [glue]

theorem glue_splitNl : ∀ s : Str, glue true (splitNl s) = s := by
  intro s
  induction s with
  | nil => rfl
  | cons c rest ih =>
    by_cases h : c = '\n'
    · subst h
      simp only [splitNl, if_pos rfl, glue]
      rw [glue_false_cons _ (splitNl_ne_nil rest), ih]
      simp
    · simp only [splitNl, h, if_false]
      cases hs : splitNl rest with
      | nil => exact absurd hs (splitNl_ne_nil rest)
      | cons l ls =>
        have hg : glue true (l :: ls) = rest := by rw [← hs]; exact ih
        simp only [glue] at hg ⊢
        simp at hg ⊢
        exact hg

theorem splitColon_eq :
    ∀ {line k r : Str}, splitColon line = some (k, r) → k ++ ':' :: r = line := by
  intro line
  induction line with
  | nil => intro k r h; simp [splitColon] at h
  | cons c rest ih =>
    intro k r h
    simp only [splitColon] at h
    by_cases hc : c = ':'
    · subst hc
      simp only [if_pos rfl, Option.some.injEq, Prod.mk.injEq] at h
      obtain ⟨rfl, rfl⟩ := h
      rfl
    · simp only [hc, if_false] at h
      cases hs : splitColon rest with
      | none => rw [hs] at h; simp at h
      | some p =>
        obtain ⟨k0, r0⟩ := p
        rw [hs] at h
        simp at h
        obtain ⟨rfl, rfl⟩ := h
        have hrest := ih hs
        simp only [List.cons_append]
        rw [hrest]

theorem Strings.Ext.length_le {st st' : Strings} (h : Strings.Ext st st') :
    st.entries.length ≤ st'.entries.length := by
  obtain ⟨d, e⟩ := h
  simp [e]

theorem parseItems_spec (nl : StringId) :
    ∀ (lines : List Str) (st : Strings) (first : Bool) (st' : Strings)
      (items : List RawTableItem),
      parseItems nl lines st first = some (st', items) →
      Strings.Ext st st' ∧
      (nl < st.entries.length → st.get nl = ['\n'] →
        displayTableItems st' false items = glue first lines) := by
  intro lines
  induction lines with
  | nil =>
    intro st first st' items h
    simp only [parseItems, Option.some.injEq, Prod.mk.injEq] at h
    obtain ⟨rfl, rfl⟩ := h
    exact ⟨Strings.Ext.refl st, fun _ _ => rfl⟩
  | cons line rest ih =>
    intro st first st' items h
    simp only [parseItems] at h
    cases hsc : splitColon line with
    | none =>
      rw [hsc] at h
      simp at h
    | some kr =>
      obtain ⟨k, r⟩ := kr
      rw [hsc] at h
      simp only [] at h
      cases hrec : parseItems nl rest
          (((st.insert k).1.insert (r.takeWhile fun c => c = ' ')).1.insert
            (r.dropWhile fun c => c = ' ')).1 false with
      | none =>
        rw [hrec] at h
        simp at h
      | some pr =>
        obtain ⟨st'', items'⟩ := pr
        rw [hrec] at h
        simp only [Option.some.injEq, Prod.mk.injEq] at h
        obtain ⟨rfl, rfl⟩ := h
        have hx1 := Strings.insert_ext st k
        have hx2 := Strings.insert_ext (st.insert k).1 (r.takeWhile fun c => c = ' ')
        have hx3 := Strings.insert_ext
          ((st.insert k).1.insert (r.takeWhile fun c => c = ' ')).1
          (r.dropWhile fun c => c = ' ')
        have hxP := (hx1.trans hx2).trans hx3
        obtain ⟨hxr, hdisp⟩ := ih _ false _ _ hrec
        have hxAll := hxP.trans hxr
        refine ⟨hxAll, ?_⟩
        intro hlt hget
        have hnl : st''.get nl = ['\n'] := (Strings.get_of_ext hxAll hlt).trans hget
        have hltP := lt_of_lt_of_le hlt hxP.length_le
        have hgetP := (Strings.get_of_ext hxP hlt).trans hget
        have hrest := hdisp hltP hgetP
        have hkey : st''.get (st.insert k).2 = k := by
          rw [Strings.get_of_ext ((hx2.trans hx3).trans hxr) (Strings.insert_lt st k),
            Strings.get_insert]
        have hsep : st''.get ((st.insert k).1.insert (r.takeWhile fun c => c = ' ')).2 =
            r.takeWhile (fun c => c = ' ') := by
          rw [Strings.get_of_ext (hx3.trans hxr)
              (Strings.insert_lt (st.insert k).1 (r.takeWhile fun c => c = ' ')),
            Strings.get_insert]
        have hval : st''.get
            (((st.insert k).1.insert (r.takeWhile fun c => c = ' ')).1.insert
              (r.dropWhile fun c => c = ' ')).2 =
            r.dropWhile (fun c => c = ' ') := by
          rw [Strings.get_of_ext hxr
              (Strings.insert_lt ((st.insert k).1.insert
                (r.takeWhile fun c => c = ' ')).1 (r.dropWhile fun c => c = ' ')),
            Strings.get_insert]
        rw [displayTableItems_cons]
        simp only [tableEntryText, RawTableItem.pfx, RawTableItem.key,
          RawTableItem.sep, RawTableItem.value, hrest]
        rw [← splitColon_eq hsc]
        have hr : List.takeWhile (fun c => decide (c = ' ')) r ++
            (List.dropWhile (fun c => decide (c = ' ')) r ++ glue false rest) =
            r ++ glue false rest := by
          rw [← List.append_assoc, List.takeWhile_append_dropWhile]
        cases first with
        | true =>
          simp only [if_true, Bool.false_eq_true, if_false, ite_self,
            Raw.display, hkey, hsep, hval, glue, List.append_assoc,
            List.cons_append, List.singleton_append, List.nil_append, hr]
        | false =>
          simp only [Bool.false_eq_true, if_false, if_true, ite_self, hnl,
            Raw.display, hkey, hsep, hval, glue, List.append_assoc,
            List.cons_append, List.singleton_append, List.nil_append, hr]

/-- C1: round-trip identity. For any document text the modelled scanner
accepts (a bare scalar, or an expanded top-level table of
`key:SPACESvalue` lines), building the tree and immediately rendering
it reproduces the input text byte-for-byte. -/
theorem c1_roundtrip (s : Str) (st : Strings) (r : Raw)
    (h : parseDoc s = some (st, r)) : r.display st = s := by
  unfold parseDoc at h
  by_cases hc : s.contains ':' = false ∧ s.contains '\n' = false
  · rw [if_pos hc] at h
    simp only [Option.some.injEq, Prod.mk.injEq] at h
    obtain ⟨rfl, rfl⟩ := h
    simp [Raw.display, Strings.get_insert]
  · rw [if_neg hc] at h
    cases hp : parseItems ((Strings.mk []).insert ['\n']).2 (splitNl s)
        ((Strings.mk []).insert ['\n']).1 true with
    | none =>
      rw [hp] at h
      simp at h
    | some pr =>
      obtain ⟨st0, items⟩ := pr
      rw [hp] at h
      simp only [Option.some.injEq, Prod.mk.injEq] at h
      obtain ⟨rfl, rfl⟩ := h
      obtain ⟨hx, hdisp⟩ := parseItems_spec _ _ _ _ _ _ hp
      have h1 : ((Strings.mk []).insert ['\n']).2 <
          ((Strings.mk []).insert ['\n']).1.entries.length := by decide
      have h2 : ((Strings.mk []).insert ['\n']).1.get
          ((Strings.mk []).insert ['\n']).2 = ['\n'] := by decide
      have hd := hdisp h1 h2
      simp only [Raw.display]
      rw [hd, glue_splitNl]
      simp

/-- The concrete two-line document for the C1 witness. -/
def c1Doc : Str := "a: 1\nb:  2".toList

/-- The interner the modelled scanner builds for `c1Doc`. -/
def c1St : Strings := ⟨[['\n'], ['a'], [' '], ['1'], ['b'], [' ', ' '], ['2']]⟩

/-- The tree the modelled scanner builds for `c1Doc`. -/
def c1Raw : Raw :=
  .mk (.table (.mk .Table
    [.mk none ⟨.Bare, 1⟩ 2 (.mk (.string ⟨.Bare, 3⟩) ⟨0⟩),
     .mk (some 0) ⟨.Bare, 4⟩ 5 (.mk (.string ⟨.Bare, 6⟩) ⟨0⟩)])) ⟨0⟩

/-- C1 witness: parsing `a: 1\nb:  2` and rendering reproduces it. -/
theorem c1_witness :
    parseDoc c1Doc = some (c1St, c1Raw) ∧
    Raw.display c1St c1Raw = c1Doc := by
  have h : parseDoc c1Doc = some (c1St, c1Raw) := rfl
  exact ⟨h, c1_roundtrip c1Doc c1St c1Raw h⟩
